import Mathlib

/-!
Shallow embedding of the `xdol` repository for verification.

Two parts are modelled:

* the key-space reconciliation engine (module `xdol/updating.py`, whose
  implementation file is not part of the sources at hand; only its tests
  are, so the engine is modelled from the specification document), and
* the filesystem-backed python-file stores of `xdol/pystores.py`
  (embedded from the source file itself).

Stores are embedded as association lists `List (K × V)`; machine-level
concerns (actual filesystem I/O) are abstracted into the store contents.
Fallible operations (a policy or extractor that raises, a `NotFound` read)
are embedded with `Except String`.
-/

namespace Xdol

/-- Modelled from the spec: the enumerated outcome type `KeyDecision` of
`xdol/updating.py` (missing from the sources), with the three decisions
COPY, SKIP, DELETE. -/
inductive KeyDecision where
  | COPY
  | SKIP
  | DELETE
deriving DecidableEq, Repr

/-- Modelled from the spec: the `ReconciliationStats` counters returned by
`update_with_policy` of `xdol/updating.py` (missing from the sources):
`examined`, `updated`, `added`, `deleted`, `unchanged`. -/
structure Stats where
  examined : Nat
  updated : Nat
  added : Nat
  deleted : Nat
  unchanged : Nat
deriving DecidableEq, Repr

/-- The all-zero statistics a run starts from. -/
def Stats.zero : Stats := ⟨0, 0, 0, 0, 0⟩

/-- The sum of the four outcome counters of a `Stats` value. -/
def Stats.outcomes (st : Stats) : Nat :=
  st.updated + st.added + st.deleted + st.unchanged

/-- A store is embedded as an association list from keys to values. -/
abbrev Store (K V : Type) : Type := List (K × V)

variable {K V I : Type}

/-- Read a key from a store: the value at the first matching entry,
`none` when the key is absent (a raising `__getitem__` is embedded as
`none`). -/
def storeRead [DecidableEq K] : Store K V → K → Option V
  | [], _ => none
  | (k', v) :: rest, k => if k' = k then some v else storeRead rest k

/-- Write a value at a key: overwrite the first matching entry, append a
new entry when the key is absent. -/
def storeWrite [DecidableEq K] : Store K V → K → V → Store K V
  | [], k, v => [(k, v)]
  | (k', v') :: rest, k, v =>
      if k' = k then (k, v) :: rest else (k', v') :: storeWrite rest k v

/-- Delete the first entry matching a key (no-op when absent). -/
def storeDelete [DecidableEq K] : Store K V → K → Store K V
  | [], _ => []
  | (k', v') :: rest, k => if k' = k then rest else (k', v') :: storeDelete rest k

/-- The list of keys of a store. -/
def storeKeyList (s : Store K V) : List K := s.map Prod.fst

/-- The finite set of keys of a store. -/
def storeKeys [DecidableEq K] (s : Store K V) : Finset K :=
  (storeKeyList s).toFinset

theorem storeRead_storeWrite_self [DecidableEq K] (s : Store K V) (k : K) (v : V) :
    storeRead (storeWrite s k v) k = some v := by
  induction s with
  | nil => simp [storeWrite, storeRead]
  | cons p rest ih =>
      obtain ⟨k', v'⟩ := p
      by_cases h : k' = k
      · simp [storeWrite, h, storeRead]
      · simp [storeWrite, h, storeRead, ih]

theorem storeRead_storeWrite_ne [DecidableEq K] (s : Store K V) (k k₂ : K) (v : V)
    (h : k₂ ≠ k) : storeRead (storeWrite s k v) k₂ = storeRead s k₂ := by
  induction s with
  | nil => simp [storeWrite, storeRead, Ne.symm h]
  | cons p rest ih =>
      obtain ⟨k', v'⟩ := p
      by_cases hk : k' = k
      · subst hk
        simp [storeWrite, storeRead, Ne.symm h]
      · by_cases hk2 : k' = k₂
        · subst hk2
          simp [storeWrite, hk, storeRead]
        · simp [storeWrite, hk, storeRead, hk2, ih]

theorem storeRead_storeDelete_ne [DecidableEq K] (s : Store K V) (k k₂ : K)
    (h : k₂ ≠ k) : storeRead (storeDelete s k) k₂ = storeRead s k₂ := by
  induction s with
  | nil => simp [storeDelete]
  | cons p rest ih =>
      obtain ⟨k', v'⟩ := p
      by_cases hk : k' = k
      · subst hk
        simp [storeDelete, storeRead, Ne.symm h]
      · by_cases hk2 : k' = k₂
        · subst hk2
          simp [storeDelete, hk, storeRead]
        · simp [storeDelete, hk, storeRead, hk2, ih]

theorem storeRead_isSome_of_mem [DecidableEq K] (s : Store K V) (k : K)
    (h : k ∈ storeKeyList s) : (storeRead s k).isSome = true := by
  induction s with
  | nil => simp [storeKeyList] at h
  | cons p rest ih =>
      obtain ⟨k', v'⟩ := p
      by_cases hk : k' = k
      · simp [storeRead, hk]
      · simp [storeKeyList] at h
        rcases h with h | h
        · exact absurd h.symm hk
        · simp [storeRead, hk]
          exact ih (by simpa [storeKeyList] using h)

theorem mem_of_storeRead_isSome [DecidableEq K] (s : Store K V) (k : K)
    (h : (storeRead s k).isSome = true) : k ∈ storeKeyList s := by
  induction s with
  | nil => simp [storeRead] at h
  | cons p rest ih =>
      obtain ⟨k', v'⟩ := p
      by_cases hk : k' = k
      · simp [storeKeyList, hk]
      · simp [storeRead, hk] at h
        simp [storeKeyList]
        right
        simpa [storeKeyList] using ih h

theorem storeWrite_isSome [DecidableEq K] (s : Store K V) (k k₂ : K) (v : V)
    (h : (storeRead s k₂).isSome = true) :
    (storeRead (storeWrite s k v) k₂).isSome = true := by
  by_cases hk : k₂ = k
  · subst hk
    simp [storeRead_storeWrite_self]
  · rw [storeRead_storeWrite_ne s k k₂ v hk]
    exact h

/-- Modelled from the spec: gathering a key's info from one store inside
`update_with_policy` of `xdol/updating.py` (missing from the sources).
Absence is encoded as `none`; a raising extractor propagates its error. -/
def getInfo [DecidableEq K] (kti : K → V → Except String I) (s : Store K V) (k : K) :
    Except String (Option I) :=
  match storeRead s k with
  | none => Except.ok none
  | some v =>
      match kti k v with
      | Except.error e => Except.error e
      | Except.ok i => Except.ok (some i)

/-- Modelled from the spec: executing one `KeyDecision` inside
`update_with_policy` of `xdol/updating.py` (missing from the sources).
COPY reads `source[key]` (raising `NotFound` when absent) and writes it
into the target, counted as `updated` when the key pre-existed in the
target and as `added` otherwise; DELETE removes the key and counts
`deleted`; SKIP counts `unchanged`.  `examined` grows on every outcome. -/
def applyDecision [DecidableEq K] (src : Store K V) (k : K) (tgt : Store K V)
    (st : Stats) : KeyDecision → Except String (Store K V × Stats)
  | KeyDecision.SKIP =>
      Except.ok (tgt,
        { st with examined := st.examined + 1, unchanged := st.unchanged + 1 })
  | KeyDecision.DELETE =>
      Except.ok (storeDelete tgt k,
        { st with examined := st.examined + 1, deleted := st.deleted + 1 })
  | KeyDecision.COPY =>
      match storeRead src k with
      | none => Except.error "NotFound"
      | some v =>
          if (storeRead tgt k).isSome then
            Except.ok (storeWrite tgt k v,
              { st with examined := st.examined + 1, updated := st.updated + 1 })
          else
            Except.ok (storeWrite tgt k v,
              { st with examined := st.examined + 1, added := st.added + 1 })

/-- Modelled from the spec: processing of a single key by the driver of
`xdol/updating.py` (missing from the sources): gather target info, gather
source info, invoke the policy, apply the decision.  Any raising step
propagates its error. -/
def runStep [DecidableEq K] (pol : K → Option I → Option I → Except String KeyDecision)
    (tk sk : K → V → Except String I) (src : Store K V) (k : K) (tgt : Store K V)
    (st : Stats) : Except String (Store K V × Stats) :=
  match getInfo tk tgt k with
  | Except.error e => Except.error e
  | Except.ok ti =>
      match getInfo sk src k with
      | Except.error e => Except.error e
      | Except.ok si =>
          match pol k ti si with
          | Except.error e => Except.error e
          | Except.ok d => applyDecision src k tgt st d

/-- Modelled from the spec: the per-key loop of `update_with_policy` of
`xdol/updating.py` (missing from the sources).  On an exception the loop
stops: the target keeps the mutations already applied and no stats value
is produced. -/
def processKeys [DecidableEq K]
    (pol : K → Option I → Option I → Except String KeyDecision)
    (tk sk : K → V → Except String I) (src : Store K V) :
    List K → Store K V → Stats → Store K V × Except String Stats
  | [], tgt, st => (tgt, Except.ok st)
  | k :: ks, tgt, st =>
      match runStep pol tk sk src k tgt st with
      | Except.error e => (tgt, Except.error e)
      | Except.ok (tgt₁, st₁) => processKeys pol tk sk src ks tgt₁ st₁

/-- Modelled from the spec: the key universe of a run of `update_with_policy`
of `xdol/updating.py` (missing from the sources): the union of both stores'
key sets, intersected with `keys_to_consider` when that set is supplied. -/
def universeKeys [DecidableEq K] (tgt src : Store K V) (S : Option (Finset K)) :
    List K :=
  let base := (storeKeyList tgt ++ storeKeyList src).dedup
  match S with
  | none => base
  | some s => base.filter (fun k => decide (k ∈ s))

/-- Modelled from the spec: a full run of the reconciliation driver
`update_with_policy` of `xdol/updating.py` (missing from the sources), in
the general form where the policy and the two key-info extractors may
raise.  Returns the mutated target together with either the stats or the
propagated error. -/
def updateRun [DecidableEq K]
    (pol : K → Option I → Option I → Except String KeyDecision)
    (tk sk : K → V → Except String I) (tgt src : Store K V)
    (S : Option (Finset K)) : Store K V × Except String Stats :=
  processKeys pol tk sk src (universeKeys tgt src S) tgt Stats.zero

/-- Modelled from the spec: `update_with_policy` of `xdol/updating.py`
(missing from the sources) for a pure policy and a pure symmetric key-info
extractor, the common calling form of the tests. -/
def update_with_policy [DecidableEq K]
    (pol : K → Option I → Option I → KeyDecision) (kti : K → V → I)
    (tgt src : Store K V) (S : Option (Finset K)) :
    Store K V × Except String Stats :=
  updateRun (fun k t s => Except.ok (pol k t s))
    (fun k v => Except.ok (kti k v)) (fun k v => Except.ok (kti k v)) tgt src S

namespace DefaultPolicy

/-- Modelled from the spec: built-in policy ALWAYS_UPDATE of
`xdol/updating.py` (missing from the sources): COPY whenever
`source_info` is present, SKIP otherwise. -/
def ALWAYS_UPDATE (_k : K) (_t s : Option I) : KeyDecision :=
  if s.isSome then KeyDecision.COPY else KeyDecision.SKIP

/-- Modelled from the spec: built-in policy PREFER_SOURCE
("copy if different", the default) of `xdol/updating.py` (missing from
the sources): COPY when `source_info` is present and differs from
`target_info`, SKIP otherwise. -/
def PREFER_SOURCE [DecidableEq I] (_k : K) (t s : Option I) : KeyDecision :=
  match s with
  | none => KeyDecision.SKIP
  | some si => if t = some si then KeyDecision.SKIP else KeyDecision.COPY

/-- Modelled from the spec: built-in policy PREFER_TARGET of
`xdol/updating.py` (missing from the sources): COPY only when the key is
absent from the target and present in the source. -/
def PREFER_TARGET (_k : K) (t s : Option I) : KeyDecision :=
  if t.isNone && s.isSome then KeyDecision.COPY else KeyDecision.SKIP

/-- Modelled from the spec: built-in policy MISSING_ONLY of
`xdol/updating.py` (missing from the sources); identical semantics to
PREFER_TARGET. -/
def MISSING_ONLY (k : K) (t s : Option I) : KeyDecision :=
  PREFER_TARGET k t s

/-- Modelled from the spec: built-in timestamp policy NEWER of
`xdol/updating.py` (missing from the sources): a `None` target info is
treated as a new key and copied; a `None` source info (target present) is
skipped; with both present, COPY exactly when the source timestamp is
strictly greater. -/
def NEWER [LT I] [DecidableRel ((· < ·) : I → I → Prop)] (_k : K) (t s : Option I) :
    KeyDecision :=
  match t with
  | none => KeyDecision.COPY
  | some ti =>
      match s with
      | none => KeyDecision.SKIP
      | some si => if ti < si then KeyDecision.COPY else KeyDecision.SKIP

/-- Modelled from the spec: built-in policy CONTENT_HASH of
`xdol/updating.py` (missing from the sources): like PREFER_SOURCE, with
the key-info extractor fixed to a caller-supplied content hash; COPY
exactly when the hashes differ. -/
def CONTENT_HASH [DecidableEq I] (k : K) (t s : Option I) : KeyDecision :=
  PREFER_SOURCE k t s

end DefaultPolicy

theorem applyDecision_ok_stats [DecidableEq K] {src : Store K V} {k : K}
    {tgt : Store K V} {st : Stats} {d : KeyDecision} {tgt₁ : Store K V} {st₁ : Stats}
    (h : applyDecision src k tgt st d = Except.ok (tgt₁, st₁)) :
    st₁.examined = st.examined + 1 ∧ st₁.outcomes = st.outcomes + 1 := by
  cases d with
  | SKIP =>
      simp only [applyDecision, Except.ok.injEq, Prod.mk.injEq] at h
      obtain ⟨-, h2⟩ := h
      subst h2
      simp [Stats.outcomes]
      omega
  | DELETE =>
      simp only [applyDecision, Except.ok.injEq, Prod.mk.injEq] at h
      obtain ⟨-, h2⟩ := h
      subst h2
      simp [Stats.outcomes]
      omega
  | COPY =>
      simp only [applyDecision] at h
      split at h
      · simp at h
      · split at h <;>
          · simp only [Except.ok.injEq, Prod.mk.injEq] at h
            obtain ⟨-, h2⟩ := h
            subst h2
            simp [Stats.outcomes]
            omega

theorem applyDecision_ok_shape [DecidableEq K] {src : Store K V} {k : K}
    {tgt : Store K V} {st : Stats} {d : KeyDecision} {tgt₁ : Store K V} {st₁ : Stats}
    (h : applyDecision src k tgt st d = Except.ok (tgt₁, st₁)) :
    tgt₁ = tgt ∨ (∃ v, tgt₁ = storeWrite tgt k v) ∨ tgt₁ = storeDelete tgt k := by
  cases d with
  | SKIP =>
      simp only [applyDecision, Except.ok.injEq, Prod.mk.injEq] at h
      exact Or.inl h.1.symm
  | DELETE =>
      simp only [applyDecision, Except.ok.injEq, Prod.mk.injEq] at h
      exact Or.inr (Or.inr h.1.symm)
  | COPY =>
      simp only [applyDecision] at h
      split at h
      · simp at h
      · rename_i v hv
        split at h <;>
          · simp only [Except.ok.injEq, Prod.mk.injEq] at h
            exact Or.inr (Or.inl ⟨v, h.1.symm⟩)

theorem runStep_ok_stats [DecidableEq K]
    {pol : K → Option I → Option I → Except String KeyDecision}
    {tk sk : K → V → Except String I} {src : Store K V} {k : K}
    {tgt : Store K V} {st : Stats} {tgt₁ : Store K V} {st₁ : Stats}
    (h : runStep pol tk sk src k tgt st = Except.ok (tgt₁, st₁)) :
    st₁.examined = st.examined + 1 ∧ st₁.outcomes = st.outcomes + 1 := by
  unfold runStep at h
  split at h
  · simp at h
  · split at h
    · simp at h
    · split at h
      · simp at h
      · exact applyDecision_ok_stats h

theorem runStep_ok_read_ne [DecidableEq K]
    {pol : K → Option I → Option I → Except String KeyDecision}
    {tk sk : K → V → Except String I} {src : Store K V} {k : K}
    {tgt : Store K V} {st : Stats} {tgt₁ : Store K V} {st₁ : Stats}
    (h : runStep pol tk sk src k tgt st = Except.ok (tgt₁, st₁))
    (k₂ : K) (hne : k₂ ≠ k) : storeRead tgt₁ k₂ = storeRead tgt k₂ := by
  have hshape : tgt₁ = tgt ∨ (∃ v, tgt₁ = storeWrite tgt k v) ∨ tgt₁ = storeDelete tgt k := by
    unfold runStep at h
    split at h
    · simp at h
    · split at h
      · simp at h
      · split at h
        · simp at h
        · exact applyDecision_ok_shape h
  rcases hshape with rfl | ⟨v, rfl⟩ | rfl
  · rfl
  · exact storeRead_storeWrite_ne tgt k k₂ v hne
  · exact storeRead_storeDelete_ne tgt k k₂ hne

theorem processKeys_frame [DecidableEq K]
    {pol : K → Option I → Option I → Except String KeyDecision}
    {tk sk : K → V → Except String I} {src : Store K V} :
    ∀ (ks : List K) (tgt : Store K V) (st : Stats) (k : K), k ∉ ks →
      storeRead (processKeys pol tk sk src ks tgt st).1 k = storeRead tgt k := by
  intro ks
  induction ks with
  | nil => intro tgt st k _; rfl
  | cons k₀ ks ih =>
      intro tgt st k hk
      have hk₀ : k ≠ k₀ := fun h => hk (h ▸ List.mem_cons_self k₀ ks)
      have hks : k ∉ ks := fun h => hk (List.mem_cons_of_mem _ h)
      unfold processKeys
      cases hs : runStep pol tk sk src k₀ tgt st with
      | error e => rfl
      | ok p =>
          obtain ⟨tgt₁, st₁⟩ := p
          rw [ih tgt₁ st₁ k hks, runStep_ok_read_ne hs k hk₀]

theorem processKeys_ok_invariant [DecidableEq K]
    {pol : K → Option I → Option I → Except String KeyDecision}
    {tk sk : K → V → Except String I} {src : Store K V} :
    ∀ (ks : List K) (tgt : Store K V) (st : Stats) (tgt' : Store K V) (st' : Stats),
      processKeys pol tk sk src ks tgt st = (tgt', Except.ok st') →
      st'.examined + st.outcomes = st.examined + st'.outcomes := by
  intro ks
  induction ks with
  | nil =>
      intro tgt st tgt' st' h
      simp only [processKeys, Prod.mk.injEq, Except.ok.injEq] at h
      rw [h.2]
  | cons k₀ ks ih =>
      intro tgt st tgt' st' h
      unfold processKeys at h
      cases hs : runStep pol tk sk src k₀ tgt st with
      | error e => rw [hs] at h; simp at h
      | ok p =>
          obtain ⟨tgt₁, st₁⟩ := p
          rw [hs] at h
          have hstep := runStep_ok_stats hs
          have hrest := ih tgt₁ st₁ tgt' st' h
          omega

theorem runStep_pure [DecidableEq K] (pol : K → Option I → Option I → KeyDecision)
    (kti : K → V → I) (src : Store K V) (k : K) (tgt : Store K V) (st : Stats) :
    runStep (fun k t s => Except.ok (pol k t s)) (fun k v => Except.ok (kti k v))
        (fun k v => Except.ok (kti k v)) src k tgt st
      = applyDecision src k tgt st
          (pol k ((storeRead tgt k).map (kti k)) ((storeRead src k).map (kti k))) := by
  unfold runStep getInfo
  cases storeRead tgt k <;> cases storeRead src k <;> rfl

theorem applyDecision_ok_of [DecidableEq K] {src : Store K V} {k : K}
    (tgt : Store K V) (st : Stats) {d : KeyDecision}
    (hc : d = KeyDecision.COPY → (storeRead src k).isSome = true)
    (hd : d ≠ KeyDecision.DELETE) :
    ∃ tgt₁ st₁, applyDecision src k tgt st d = Except.ok (tgt₁, st₁) ∧
      st₁.deleted = st.deleted ∧
      (∀ k₂, (storeRead tgt k₂).isSome = true → (storeRead tgt₁ k₂).isSome = true) := by
  cases d with
  | DELETE => exact absurd rfl hd
  | SKIP =>
      refine ⟨tgt, _, rfl, rfl, fun k₂ h => h⟩
  | COPY =>
      cases hsrc : storeRead src k with
      | none => simp [hsrc] at hc
      | some v =>
          by_cases ht : (storeRead tgt k).isSome
          · exact ⟨storeWrite tgt k v,
              { st with examined := st.examined + 1, updated := st.updated + 1 },
              by simp [applyDecision, hsrc, ht], rfl,
              fun k₂ h => storeWrite_isSome tgt k k₂ v h⟩
          · exact ⟨storeWrite tgt k v,
              { st with examined := st.examined + 1, added := st.added + 1 },
              by simp [applyDecision, hsrc, ht], rfl,
              fun k₂ h => storeWrite_isSome tgt k k₂ v h⟩

theorem pure_run_spec [DecidableEq K]
    {pol : K → Option I → Option I → KeyDecision} {kti : K → V → I} {src : Store K V}
    (hD : ∀ k t s, pol k t s ≠ KeyDecision.DELETE)
    (hC : ∀ k (ti : I), pol k (some ti) none ≠ KeyDecision.COPY) :
    ∀ (ks : List K) (tgt : Store K V) (st : Stats),
      (∀ k ∈ ks, (storeRead tgt k).isSome = true ∨ (storeRead src k).isSome = true) →
      ∃ tgt' st',
        processKeys (fun k t s => Except.ok (pol k t s)) (fun k v => Except.ok (kti k v))
            (fun k v => Except.ok (kti k v)) src ks tgt st = (tgt', Except.ok st') ∧
        st'.examined = st.examined + ks.length ∧
        st'.deleted = st.deleted ∧
        (∀ k, (storeRead tgt k).isSome = true → (storeRead tgt' k).isSome = true) := by
  intro ks
  induction ks with
  | nil => intro tgt st _; exact ⟨tgt, st, rfl, by simp, rfl, fun k h => h⟩
  | cons k₀ ks ih =>
      intro tgt st hpres
      have hc : pol k₀ ((storeRead tgt k₀).map (kti k₀)) ((storeRead src k₀).map (kti k₀))
          = KeyDecision.COPY → (storeRead src k₀).isSome = true := by
        intro hcopy
        cases hsrc : storeRead src k₀ with
        | some v => rfl
        | none =>
            rw [hsrc] at hcopy
            cases htgt : storeRead tgt k₀ with
            | none =>
                have hp := hpres k₀ (List.mem_cons_self k₀ ks)
                simp [htgt, hsrc] at hp
            | some v =>
                rw [htgt] at hcopy
                exact absurd hcopy (hC k₀ (kti k₀ v))
      obtain ⟨tgt₁, st₁, hstep, hdel, hpr⟩ :=
        @applyDecision_ok_of K V _ src k₀ tgt st _ hc (hD k₀ _ _)
      have hstats := applyDecision_ok_stats hstep
      have hpres' : ∀ k ∈ ks, (storeRead tgt₁ k).isSome = true ∨ (storeRead src k).isSome = true := by
        intro k hk
        rcases hpres k (List.mem_cons_of_mem k₀ hk) with h | h
        · exact Or.inl (hpr k h)
        · exact Or.inr h
      obtain ⟨tgt', st', hrun, hex, hdel', hpr'⟩ := ih tgt₁ st₁ hpres'
      refine ⟨tgt', st', ?_, ?_, ?_, fun k h => hpr' k (hpr k h)⟩
      · unfold processKeys
        rw [runStep_pure, hstep]
        exact hrun
      · simp only [List.length_cons]
        omega
      · rw [hdel', hdel]

theorem processKeys_append_error [DecidableEq K]
    {pol : K → Option I → Option I → Except String KeyDecision}
    {tk sk : K → V → Except String I} {src : Store K V} :
    ∀ (ks₁ : List K) (k : K) (ks₂ : List K) (tgt : Store K V) (st : Stats)
      (tgt₁ : Store K V) (st₁ : Stats) (e : String),
      processKeys pol tk sk src ks₁ tgt st = (tgt₁, Except.ok st₁) →
      runStep pol tk sk src k tgt₁ st₁ = Except.error e →
      processKeys pol tk sk src (ks₁ ++ k :: ks₂) tgt st = (tgt₁, Except.error e) := by
  intro ks₁
  induction ks₁ with
  | nil =>
      intro k ks₂ tgt st tgt₁ st₁ e h1 h2
      simp only [processKeys, Prod.mk.injEq, Except.ok.injEq] at h1
      obtain ⟨rfl, rfl⟩ := h1
      simp only [List.nil_append, processKeys, h2]
  | cons k₀ ks ih =>
      intro k ks₂ tgt st tgt₁ st₁ e h1 h2
      unfold processKeys at h1
      rw [List.cons_append]
      unfold processKeys
      cases hs : runStep pol tk sk src k₀ tgt st with
      | error e' => rw [hs] at h1; simp at h1
      | ok p =>
          obtain ⟨tgta, sta⟩ := p
          rw [hs] at h1
          exact ih k ks₂ tgta sta tgt₁ st₁ e h1 h2

theorem universe_presence [DecidableEq K] (tgt src : Store K V) (S : Option (Finset K)) :
    ∀ k ∈ universeKeys tgt src S,
      (storeRead tgt k).isSome = true ∨ (storeRead src k).isSome = true := by
  intro k hk
  have hbase : k ∈ (storeKeyList tgt ++ storeKeyList src).dedup := by
    cases S with
    | none => exact hk
    | some s => exact (List.mem_filter.mp hk).1
  rcases List.mem_append.mp (List.mem_dedup.mp hbase) with h | h
  · exact Or.inl (storeRead_isSome_of_mem tgt k h)
  · exact Or.inr (storeRead_isSome_of_mem src k h)

theorem universe_not_mem [DecidableEq K] (tgt src : Store K V) (s : Finset K) (k : K)
    (hk : k ∉ s) : k ∉ universeKeys tgt src (some s) := by
  intro hmem
  have h2 := (List.mem_filter.mp hmem).2
  simp only [decide_eq_true_eq] at h2
  exact hk h2

theorem universe_nodup [DecidableEq K] (tgt src : Store K V) (S : Option (Finset K)) :
    (universeKeys tgt src S).Nodup := by
  cases S with
  | none => exact List.nodup_dedup _
  | some s => exact (List.nodup_dedup _).filter _

/-- C1: for every run of the reconciliation driver `update_with_policy` in
which the policy returns exactly one decision per examined key (in the
embedding: every run of `updateRun` that returns a stats value at all),
the returned stats satisfy
`examined = updated + added + deleted + unchanged`. -/
theorem C1_stats_invariant [DecidableEq K]
    (pol : K → Option I → Option I → Except String KeyDecision)
    (tk sk : K → V → Except String I) (tgt src : Store K V) (S : Option (Finset K))
    (tgt' : Store K V) (st : Stats)
    (h : updateRun pol tk sk tgt src S = (tgt', Except.ok st)) :
    st.examined = st.updated + st.added + st.deleted + st.unchanged := by
  unfold updateRun at h
  have hinv := processKeys_ok_invariant (universeKeys tgt src S) tgt Stats.zero tgt' st h
  simp only [Stats.zero, Stats.outcomes] at hinv
  omega

/-- Witness for C1 at a concrete run (the default-policy example of the
test suite, with numeric keys). -/
theorem C1_stats_invariant_witness :
    (Stats.mk 3 1 1 0 1).examined
      = (Stats.mk 3 1 1 0 1).updated + (Stats.mk 3 1 1 0 1).added
        + (Stats.mk 3 1 1 0 1).deleted + (Stats.mk 3 1 1 0 1).unchanged :=
  C1_stats_invariant
    (fun k t s => Except.ok (DefaultPolicy.PREFER_SOURCE k t s))
    (fun _ v => Except.ok v) (fun _ v => Except.ok v)
    ([(0, 1), (1, 2)] : Store Nat Nat) [(0, 10), (2, 30)] none
    [(0, 10), (1, 2), (2, 30)] (Stats.mk 3 1 1 0 1) (by rfl)

/-- C2: running `update_with_policy` with the default policy
("copy if different") on target `{a:1, b:2}` and source `{a:10, c:30}`
leaves the target equal to `{a:10, b:2, c:30}` and returns stats
`examined=3, updated=1, added=1, unchanged=1, deleted=0`. -/
theorem C2_default_policy_example :
    update_with_policy (DefaultPolicy.PREFER_SOURCE) (fun _ v => v)
        ([("a", 1), ("b", 2)] : Store String Nat) [("a", 10), ("c", 30)] none
      = ([("a", 10), ("b", 2), ("c", 30)], Except.ok (Stats.mk 3 1 1 0 1)) := by
  rfl

/-- C7: if the policy, a key-info extractor, or a store operation raises at
some key of the universe, the exception propagates out of the driver, no
stats value is returned, and the target keeps exactly the mutations from
the keys processed before the failing one (no rollback). -/
theorem C7_failure_propagation [DecidableEq K]
    (pol : K → Option I → Option I → Except String KeyDecision)
    (tk sk : K → V → Except String I) (tgt src : Store K V) (S : Option (Finset K))
    (ks₁ : List K) (k : K) (ks₂ : List K) (tgt₁ : Store K V) (st₁ : Stats) (e : String)
    (hu : universeKeys tgt src S = ks₁ ++ k :: ks₂)
    (h1 : processKeys pol tk sk src ks₁ tgt Stats.zero = (tgt₁, Except.ok st₁))
    (h2 : runStep pol tk sk src k tgt₁ st₁ = Except.error e) :
    updateRun pol tk sk tgt src S = (tgt₁, Except.error e) := by
  unfold updateRun
  rw [hu]
  exact processKeys_append_error ks₁ k ks₂ tgt Stats.zero tgt₁ st₁ e h1 h2

/-- Witness for C7: a policy that raises on key `1` after copying key `0`;
the run aborts with the error, the earlier COPY is kept in the target,
and no stats value is produced. -/
theorem C7_failure_propagation_witness :
    updateRun
        (fun k t s =>
          if k = 1 then Except.error "boom"
          else Except.ok (DefaultPolicy.ALWAYS_UPDATE k t s))
        (fun _ v => Except.ok v) (fun _ v => Except.ok v)
        ([(0, 0)] : Store Nat Nat) [(0, 1), (1, 5)] none
      = ([(0, 1)], Except.error "boom") :=
  C7_failure_propagation
    (fun k t s =>
      if k = 1 then Except.error "boom"
      else Except.ok (DefaultPolicy.ALWAYS_UPDATE k t s))
    (fun _ v => Except.ok v) (fun _ v => Except.ok v)
    ([(0, 0)] : Store Nat Nat) [(0, 1), (1, 5)] none
    [0] 1 [] [(0, 1)] (Stats.mk 1 1 0 0 0) "boom" (by rfl) (by rfl) (by rfl)

/-- C4 counterexample: the claim states unconditionally that NEWER
"returns SKIP if source_info is None", but when the target info is also
`None` the policy (which, following the spec's own rule order, treats a
`None` target info as a new key) returns COPY, not SKIP. -/
theorem C4_newer_policy_counterexample :
    DefaultPolicy.NEWER (0 : Nat) (none : Option Nat) none = KeyDecision.COPY
      ∧ KeyDecision.COPY ≠ KeyDecision.SKIP := by
  exact ⟨rfl, by decide⟩

/-- C4 (amended): the NEWER policy returns COPY if the target info is
`None`; it returns SKIP if the source info is `None` while the target info
is present (it never deletes); and if both infos are present it compares
them directly, copying exactly when the source info is strictly newer. -/
theorem C4_newer_policy_amended {K I : Type} [LT I]
    [DecidableRel ((· < ·) : I → I → Prop)] (k : K) (t s : Option I) :
    (t = none → DefaultPolicy.NEWER k t s = KeyDecision.COPY) ∧
    (s = none → t ≠ none → DefaultPolicy.NEWER k t s = KeyDecision.SKIP) ∧
    (∀ ti si, t = some ti → s = some si →
      (DefaultPolicy.NEWER k t s = KeyDecision.COPY ↔ ti < si)) ∧
    DefaultPolicy.NEWER k t s ≠ KeyDecision.DELETE := by
  refine ⟨?_, ?_, ?_, ?_⟩
  · intro ht; subst ht; rfl
  · intro hs ht
    subst hs
    cases t with
    | none => exact absurd rfl ht
    | some ti => rfl
  · intro ti si hti hsi
    subst hti; subst hsi
    by_cases hlt : ti < si <;> simp [DefaultPolicy.NEWER, hlt]
  · cases t with
    | none => simp [DefaultPolicy.NEWER]
    | some ti =>
        cases s with
        | none => simp [DefaultPolicy.NEWER]
        | some si => by_cases hlt : ti < si <;> simp [DefaultPolicy.NEWER, hlt]

/-- Witness for C4 (amended) at concrete timestamps: both present with the
source strictly newer gives COPY, and an absent source with a present
target gives SKIP. -/
theorem C4_newer_policy_amended_witness :
    DefaultPolicy.NEWER (0 : Nat) (some 1) (some (2 : Nat)) = KeyDecision.COPY
      ∧ DefaultPolicy.NEWER (0 : Nat) (some (1 : Nat)) none = KeyDecision.SKIP :=
  ⟨((C4_newer_policy_amended 0 (some 1) (some 2)).2.2.1 1 2 rfl rfl).mpr (by decide),
    (C4_newer_policy_amended (0 : Nat) (some (1 : Nat)) none).2.1 rfl (by simp)⟩

/-- C5: under ALWAYS_UPDATE, a key present in both stores with identical
values is still copied and counted as `updated` (not `unchanged`);
ALWAYS_UPDATE returns COPY whenever the source info is present, and SKIP
when the source is absent and the target present. -/
theorem C5_always_update_counts_identical_as_updated :
    (∀ (K I : Type) (k : K) (t : Option I) (i : I),
        DefaultPolicy.ALWAYS_UPDATE k t (some i) = KeyDecision.COPY) ∧
    (∀ (K I : Type) (k : K) (i : I),
        DefaultPolicy.ALWAYS_UPDATE k (some i) (none : Option I) = KeyDecision.SKIP) ∧
    (∀ (K V I : Type) [DecidableEq K] (k : K) (v : V) (kti : K → V → I),
        update_with_policy DefaultPolicy.ALWAYS_UPDATE kti [(k, v)] [(k, v)] none
          = ([(k, v)], Except.ok (Stats.mk 1 1 0 0 0))) := by
  refine ⟨fun K I k t i => rfl, fun K I k i => rfl, ?_⟩
  intro K V I inst k v kti
  have huniv : universeKeys ([(k, v)] : Store K V) [(k, v)] none = [k] := by
    simp [universeKeys, storeKeyList]
  unfold update_with_policy updateRun
  rw [huniv]
  unfold processKeys
  rw [runStep_pure]
  have hrd : storeRead ([(k, v)] : Store K V) k = some v := by simp [storeRead]
  rw [hrd]
  simp [DefaultPolicy.ALWAYS_UPDATE, applyDecision, hrd, storeWrite, Stats.zero,
    processKeys]

theorem ALWAYS_UPDATE_hD (k : K) (t s : Option I) :
    DefaultPolicy.ALWAYS_UPDATE k t s ≠ KeyDecision.DELETE := by
  unfold DefaultPolicy.ALWAYS_UPDATE
  split <;> simp

theorem ALWAYS_UPDATE_hC (k : K) (ti : I) :
    DefaultPolicy.ALWAYS_UPDATE k (some ti) (none : Option I) ≠ KeyDecision.COPY := by
  simp [DefaultPolicy.ALWAYS_UPDATE]

theorem PREFER_SOURCE_hD [DecidableEq I] (k : K) (t s : Option I) :
    DefaultPolicy.PREFER_SOURCE k t s ≠ KeyDecision.DELETE := by
  unfold DefaultPolicy.PREFER_SOURCE
  cases s with
  | none => simp
  | some si => split <;> (try split) <;> simp

theorem PREFER_SOURCE_hC [DecidableEq I] (k : K) (ti : I) :
    DefaultPolicy.PREFER_SOURCE k (some ti) (none : Option I) ≠ KeyDecision.COPY := by
  simp [DefaultPolicy.PREFER_SOURCE]

theorem PREFER_TARGET_hD (k : K) (t s : Option I) :
    DefaultPolicy.PREFER_TARGET k t s ≠ KeyDecision.DELETE := by
  unfold DefaultPolicy.PREFER_TARGET
  split <;> simp

theorem PREFER_TARGET_hC (k : K) (ti : I) :
    DefaultPolicy.PREFER_TARGET k (some ti) (none : Option I) ≠ KeyDecision.COPY := by
  simp [DefaultPolicy.PREFER_TARGET]

theorem NEWER_hD [LT I] [DecidableRel ((· < ·) : I → I → Prop)] (k : K) (t s : Option I) :
    DefaultPolicy.NEWER k t s ≠ KeyDecision.DELETE := by
  cases t with
  | none => simp [DefaultPolicy.NEWER]
  | some ti =>
      cases s with
      | none => simp [DefaultPolicy.NEWER]
      | some si => by_cases hlt : ti < si <;> simp [DefaultPolicy.NEWER, hlt]

theorem NEWER_hC [LT I] [DecidableRel ((· < ·) : I → I → Prop)] (k : K) (ti : I) :
    DefaultPolicy.NEWER k (some ti) (none : Option I) ≠ KeyDecision.COPY := by
  simp [DefaultPolicy.NEWER]

theorem builtin_run_ok [DecidableEq K]
    {pol : K → Option I → Option I → KeyDecision} {kti : K → V → I}
    (hD : ∀ (k : K) (t s : Option I), pol k t s ≠ KeyDecision.DELETE)
    (hC : ∀ (k : K) (ti : I), pol k (some ti) none ≠ KeyDecision.COPY)
    (tgt src : Store K V) (S : Option (Finset K)) :
    ∃ tgt' st, update_with_policy pol kti tgt src S = (tgt', Except.ok st) ∧
      st.deleted = 0 ∧
      ∀ k, (storeRead tgt k).isSome = true → (storeRead tgt' k).isSome = true := by
  obtain ⟨tgt', st', hrun, _, hdel, hpr⟩ :=
    pure_run_spec hD hC (universeKeys tgt src S) tgt Stats.zero
      (universe_presence tgt src S)
  exact ⟨tgt', st', hrun, hdel.trans rfl, hpr⟩

/-- C6: none of the built-in policies (ALWAYS_UPDATE, PREFER_SOURCE,
PREFER_TARGET, MISSING_ONLY, NEWER, CONTENT_HASH) ever returns DELETE for
any key and infos; consequently every run of the driver with a built-in
policy succeeds, removes no key from the target, and returns stats with
`deleted = 0`. -/
theorem C6_builtins_never_delete :
    (∀ (K I : Type) (k : K) (t s : Option I),
        DefaultPolicy.ALWAYS_UPDATE k t s ≠ KeyDecision.DELETE) ∧
    (∀ (K I : Type) [DecidableEq I] (k : K) (t s : Option I),
        DefaultPolicy.PREFER_SOURCE k t s ≠ KeyDecision.DELETE) ∧
    (∀ (K I : Type) (k : K) (t s : Option I),
        DefaultPolicy.PREFER_TARGET k t s ≠ KeyDecision.DELETE) ∧
    (∀ (K I : Type) (k : K) (t s : Option I),
        DefaultPolicy.MISSING_ONLY k t s ≠ KeyDecision.DELETE) ∧
    (∀ (K I : Type) [LT I] [DecidableRel ((· < ·) : I → I → Prop)] (k : K) (t s : Option I),
        DefaultPolicy.NEWER k t s ≠ KeyDecision.DELETE) ∧
    (∀ (K I : Type) [DecidableEq I] (k : K) (t s : Option I),
        DefaultPolicy.CONTENT_HASH k t s ≠ KeyDecision.DELETE) ∧
    (∀ (K V I : Type) [DecidableEq K] (kti : K → V → I) (tgt src : Store K V)
        (S : Option (Finset K)),
      ∃ tgt' st,
        update_with_policy DefaultPolicy.ALWAYS_UPDATE kti tgt src S
            = (tgt', Except.ok st) ∧
          st.deleted = 0 ∧
          ∀ k, (storeRead tgt k).isSome = true → (storeRead tgt' k).isSome = true) ∧
    (∀ (K V I : Type) [DecidableEq K] [DecidableEq I] (kti : K → V → I)
        (tgt src : Store K V) (S : Option (Finset K)),
      ∃ tgt' st,
        update_with_policy DefaultPolicy.PREFER_SOURCE kti tgt src S
            = (tgt', Except.ok st) ∧
          st.deleted = 0 ∧
          ∀ k, (storeRead tgt k).isSome = true → (storeRead tgt' k).isSome = true) ∧
    (∀ (K V I : Type) [DecidableEq K] (kti : K → V → I) (tgt src : Store K V)
        (S : Option (Finset K)),
      ∃ tgt' st,
        update_with_policy DefaultPolicy.PREFER_TARGET kti tgt src S
            = (tgt', Except.ok st) ∧
          st.deleted = 0 ∧
          ∀ k, (storeRead tgt k).isSome = true → (storeRead tgt' k).isSome = true) ∧
    (∀ (K V I : Type) [DecidableEq K] (kti : K → V → I) (tgt src : Store K V)
        (S : Option (Finset K)),
      ∃ tgt' st,
        update_with_policy DefaultPolicy.MISSING_ONLY kti tgt src S
            = (tgt', Except.ok st) ∧
          st.deleted = 0 ∧
          ∀ k, (storeRead tgt k).isSome = true → (storeRead tgt' k).isSome = true) ∧
    (∀ (K V I : Type) [DecidableEq K] [LT I] [DecidableRel ((· < ·) : I → I → Prop)]
        (kti : K → V → I) (tgt src : Store K V) (S : Option (Finset K)),
      ∃ tgt' st,
        update_with_policy DefaultPolicy.NEWER kti tgt src S
            = (tgt', Except.ok st) ∧
          st.deleted = 0 ∧
          ∀ k, (storeRead tgt k).isSome = true → (storeRead tgt' k).isSome = true) ∧
    (∀ (K V I : Type) [DecidableEq K] [DecidableEq I] (kti : K → V → I)
        (tgt src : Store K V) (S : Option (Finset K)),
      ∃ tgt' st,
        update_with_policy DefaultPolicy.CONTENT_HASH kti tgt src S
            = (tgt', Except.ok st) ∧
          st.deleted = 0 ∧
          ∀ k, (storeRead tgt k).isSome = true → (storeRead tgt' k).isSome = true) := by
  refine ⟨?_, ?_, ?_, ?_, ?_, ?_, ?_, ?_, ?_, ?_, ?_, ?_⟩
  · intro K I k t s; exact ALWAYS_UPDATE_hD k t s
  · intro K I inst k t s; exact PREFER_SOURCE_hD k t s
  · intro K I k t s; exact PREFER_TARGET_hD k t s
  · intro K I k t s; exact PREFER_TARGET_hD k t s
  · intro K I instLT instRel k t s; exact NEWER_hD k t s
  · intro K I inst k t s; exact PREFER_SOURCE_hD k t s
  · intro K V I inst kti tgt src S
    exact builtin_run_ok ALWAYS_UPDATE_hD ALWAYS_UPDATE_hC tgt src S
  · intro K V I instK instI kti tgt src S
    exact builtin_run_ok PREFER_SOURCE_hD PREFER_SOURCE_hC tgt src S
  · intro K V I inst kti tgt src S
    exact builtin_run_ok PREFER_TARGET_hD PREFER_TARGET_hC tgt src S
  · intro K V I inst kti tgt src S
    exact builtin_run_ok PREFER_TARGET_hD PREFER_TARGET_hC tgt src S
  · intro K V I instK instLT instRel kti tgt src S
    exact builtin_run_ok NEWER_hD NEWER_hC tgt src S
  · intro K V I instK instI kti tgt src S
    exact builtin_run_ok PREFER_SOURCE_hD PREFER_SOURCE_hC tgt src S

/-- Witness for C6: a concrete policy evaluation and a concrete
PREFER_SOURCE run on numeric stores. -/
theorem C6_builtins_never_delete_witness :
    DefaultPolicy.ALWAYS_UPDATE (0 : Nat) (some 1) (some (2 : Nat)) ≠ KeyDecision.DELETE
      ∧ ∃ tgt' st,
          update_with_policy DefaultPolicy.PREFER_SOURCE (fun _ v => v)
              ([(0, 1)] : Store Nat Nat) [(0, 2)] none = (tgt', Except.ok st)
            ∧ st.deleted = 0
            ∧ ∀ k, (storeRead ([(0, 1)] : Store Nat Nat) k).isSome = true →
                (storeRead tgt' k).isSome = true :=
  ⟨C6_builtins_never_delete.1 Nat Nat 0 (some 1) (some 2),
    C6_builtins_never_delete.2.2.2.2.2.2.2.1 Nat Nat Nat (fun _ v => v)
      [(0, 1)] [(0, 2)] none⟩

theorem universeKeys_some_toFinset [DecidableEq K] (tgt src : Store K V) (s : Finset K) :
    (universeKeys tgt src (some s)).toFinset = (storeKeys tgt ∪ storeKeys src) ∩ s := by
  ext a
  simp [universeKeys, storeKeys, List.mem_filter, List.mem_dedup]

/-- C3: with `keys_to_consider = S`, the run (default policy) succeeds with
`examined = |(keys(target) ∪ keys(source)) ∩ S|`, and every target entry
whose key is outside `S` reads the same after the run as before (no key
outside `S` is written or deleted). -/
theorem C3_keys_to_consider [DecidableEq K] [DecidableEq V]
    (tgt src : Store K V) (S : Finset K) :
    ∃ tgt' st,
      update_with_policy DefaultPolicy.PREFER_SOURCE (fun _ v => v) tgt src (some S)
          = (tgt', Except.ok st) ∧
        st.examined = ((storeKeys tgt ∪ storeKeys src) ∩ S).card ∧
        ∀ k, k ∉ S → storeRead tgt' k = storeRead tgt k := by
  obtain ⟨tgt', st', hrun, hex, hdel, hpr⟩ :=
    @pure_run_spec K V V _ DefaultPolicy.PREFER_SOURCE (fun _ v => v) src
      PREFER_SOURCE_hD PREFER_SOURCE_hC
      (universeKeys tgt src (some S)) tgt Stats.zero
      (universe_presence tgt src (some S))
  refine ⟨tgt', st', hrun, ?_, ?_⟩
  · rw [hex, ← List.toFinset_card_of_nodup (universe_nodup tgt src (some S)),
      universeKeys_some_toFinset]
    simp [Stats.zero]
  · intro k hk
    have hnot := universe_not_mem tgt src S k hk
    have hframe :=
      @processKeys_frame K V V _ (fun k t s => Except.ok (DefaultPolicy.PREFER_SOURCE k t s))
        (fun k v => Except.ok v) (fun k v => Except.ok v) src
        (universeKeys tgt src (some S)) tgt Stats.zero k hnot
    rw [hrun] at hframe
    exact hframe

/-- Witness for C3 at a concrete restricted run: key `0` lies outside the
considered set `{1, 2}` and its target entry is untouched by the run. -/
theorem C3_keys_to_consider_witness :
    (0 : Nat) ∉ ({1, 2} : Finset Nat) ∧
    storeRead (update_with_policy DefaultPolicy.PREFER_SOURCE (fun _ v => v)
        ([(0, 5), (1, 6)] : Store Nat Nat) [(1, 7), (2, 8)] (some {1, 2})).1 0
      = some 5 := by
  refine ⟨by decide, ?_⟩
  obtain ⟨tgt', st, h1, h2, h3⟩ :=
    C3_keys_to_consider ([(0, 5), (1, 6)] : Store Nat Nat) [(1, 7), (2, 8)]
      ({1, 2} : Finset Nat)
  rw [h1]
  exact (h3 0 (by decide)).trans (by rfl)

theorem processKeys_cons_ok [DecidableEq K]
    {pol : K → Option I → Option I → Except String KeyDecision}
    {tk sk : K → V → Except String I} {src : Store K V} {k₀ : K} {ks : List K}
    {tgt : Store K V} {st : Stats} {tgt₁ : Store K V} {st₁ : Stats}
    (h : runStep pol tk sk src k₀ tgt st = Except.ok (tgt₁, st₁)) :
    processKeys pol tk sk src (k₀ :: ks) tgt st
      = processKeys pol tk sk src ks tgt₁ st₁ := by
  conv_lhs => rw [processKeys]
  rw [h]

theorem PREFER_SOURCE_step_ok [DecidableEq K] [DecidableEq I] (kti : K → V → I)
    (src : Store K V) (k : K) (tgt : Store K V) (st : Stats) :
    ∃ tgt₁ st₁,
      runStep (fun k t s => Except.ok (DefaultPolicy.PREFER_SOURCE k t s))
          (fun k v => Except.ok (kti k v)) (fun k v => Except.ok (kti k v))
          src k tgt st
        = Except.ok (tgt₁, st₁) := by
  rw [runStep_pure]
  have hc : DefaultPolicy.PREFER_SOURCE k ((storeRead tgt k).map (kti k))
      ((storeRead src k).map (kti k)) = KeyDecision.COPY →
      (storeRead src k).isSome = true := by
    intro h
    cases hsrc : storeRead src k with
    | some v => rfl
    | none => rw [hsrc] at h; simp [DefaultPolicy.PREFER_SOURCE] at h
  obtain ⟨tgt₁, st₁, hok, -, -⟩ :=
    applyDecision_ok_of tgt st hc (PREFER_SOURCE_hD _ _ _)
  exact ⟨tgt₁, st₁, hok⟩

theorem PREFER_SOURCE_sync [DecidableEq K] [DecidableEq I] (kti : K → V → I)
    (src : Store K V) :
    ∀ (ks : List K), ks.Nodup → ∀ (tgt : Store K V) (st : Stats) (k : K) (v : V),
      k ∈ ks → storeRead src k = some v →
      ∃ v',
        storeRead
            (processKeys (fun k t s => Except.ok (DefaultPolicy.PREFER_SOURCE k t s))
              (fun k v => Except.ok (kti k v)) (fun k v => Except.ok (kti k v))
              src ks tgt st).1 k
          = some v' ∧ kti k v' = kti k v := by
  intro ks
  induction ks with
  | nil => intro _ tgt st k v hk _; simp at hk
  | cons k₀ ks ih =>
      intro hnd tgt st k v hk hsrc
      obtain ⟨tgt₁, st₁, hstep⟩ := PREFER_SOURCE_step_ok kti src k₀ tgt st
      rw [processKeys_cons_ok hstep]
      rcases List.mem_cons.mp hk with rfl | hmem
      · have hknotin : k ∉ ks := (List.nodup_cons.mp hnd).1
        have hframe :=
          @processKeys_frame K V I _
            (fun k t s => Except.ok (DefaultPolicy.PREFER_SOURCE k t s))
            (fun k v => Except.ok (kti k v)) (fun k v => Except.ok (kti k v)) src
            ks tgt₁ st₁ k hknotin
        rw [hframe]
        rw [runStep_pure, hsrc] at hstep
        simp only [Option.map_some'] at hstep
        by_cases heq : (storeRead tgt k).map (kti k) = some (kti k v)
        · rw [show DefaultPolicy.PREFER_SOURCE k ((storeRead tgt k).map (kti k))
              (some (kti k v)) = KeyDecision.SKIP by
            simp [DefaultPolicy.PREFER_SOURCE, heq]] at hstep
          simp only [applyDecision, Except.ok.injEq, Prod.mk.injEq] at hstep
          obtain ⟨v', hv', hkti⟩ := Option.map_eq_some'.mp heq
          rw [← hstep.1, hv']
          exact ⟨v', rfl, hkti⟩
        · rw [show DefaultPolicy.PREFER_SOURCE k ((storeRead tgt k).map (kti k))
              (some (kti k v)) = KeyDecision.COPY by
            simp [DefaultPolicy.PREFER_SOURCE, heq]] at hstep
          simp only [applyDecision, hsrc] at hstep
          split at hstep <;>
            · simp only [Except.ok.injEq, Prod.mk.injEq] at hstep
              rw [← hstep.1]
              exact ⟨v, storeRead_storeWrite_self tgt k v, rfl⟩
      · exact ih (List.nodup_cons.mp hnd).2 tgt₁ st₁ k v hmem hsrc

/-- The target already agrees with the source (up to the key-info
extractor) on every source key. -/
def SyncedStore [DecidableEq K] (kti : K → V → I) (src tgt : Store K V) : Prop :=
  ∀ k v, storeRead src k = some v →
    ∃ v', storeRead tgt k = some v' ∧ kti k v' = kti k v

theorem PREFER_SOURCE_synced_run [DecidableEq K] [DecidableEq I] (kti : K → V → I)
    (src tgt : Store K V) (hs : SyncedStore kti src tgt) :
    ∀ (ks : List K) (st : Stats),
      ∃ st',
        processKeys (fun k t s => Except.ok (DefaultPolicy.PREFER_SOURCE k t s))
            (fun k v => Except.ok (kti k v)) (fun k v => Except.ok (kti k v))
            src ks tgt st
          = (tgt, Except.ok st') ∧
        st'.updated = st.updated ∧ st'.added = st.added := by
  intro ks
  induction ks with
  | nil => intro st; exact ⟨st, rfl, rfl, rfl⟩
  | cons k₀ ks ih =>
      intro st
      have hd : DefaultPolicy.PREFER_SOURCE k₀ ((storeRead tgt k₀).map (kti k₀))
          ((storeRead src k₀).map (kti k₀)) = KeyDecision.SKIP := by
        cases hsrc : storeRead src k₀ with
        | none => simp [DefaultPolicy.PREFER_SOURCE]
        | some v =>
            obtain ⟨v', hv', hkti⟩ := hs k₀ v hsrc
            simp [DefaultPolicy.PREFER_SOURCE, hv', hkti]
      have hstep : runStep (fun k t s => Except.ok (DefaultPolicy.PREFER_SOURCE k t s))
          (fun k v => Except.ok (kti k v)) (fun k v => Except.ok (kti k v))
          src k₀ tgt st
          = Except.ok (tgt,
              { st with examined := st.examined + 1, unchanged := st.unchanged + 1 }) := by
        rw [runStep_pure, hd]
        rfl
      rw [processKeys_cons_ok hstep]
      obtain ⟨st', hrun, hupd, hadd⟩ :=
        ih { st with examined := st.examined + 1, unchanged := st.unchanged + 1 }
      exact ⟨st', hrun, hupd, hadd⟩

/-- C8: running the driver with the copy-if-different policy twice in
succession on the same target and source yields `updated = 0` and
`added = 0` on the second run, for every target, source, and (symmetric)
key-info extractor; moreover the second run leaves the target untouched. -/
theorem C8_copy_if_different_idempotent [DecidableEq K] [DecidableEq I]
    (kti : K → V → I) (tgt src : Store K V) :
    ∃ tgt₁ st₁ st₂,
      update_with_policy DefaultPolicy.PREFER_SOURCE kti tgt src none
          = (tgt₁, Except.ok st₁) ∧
      update_with_policy DefaultPolicy.PREFER_SOURCE kti tgt₁ src none
          = (tgt₁, Except.ok st₂) ∧
      st₂.updated = 0 ∧ st₂.added = 0 := by
  obtain ⟨tgt₁, st₁, hrun1, -, -, -⟩ :=
    @pure_run_spec K V I _ DefaultPolicy.PREFER_SOURCE kti src
      PREFER_SOURCE_hD PREFER_SOURCE_hC
      (universeKeys tgt src none) tgt Stats.zero
      (universe_presence tgt src none)
  have hsync : SyncedStore kti src tgt₁ := by
    intro k v hsrc
    have hmem : k ∈ universeKeys tgt src none := by
      have hk : k ∈ storeKeyList src :=
        mem_of_storeRead_isSome src k (by rw [hsrc]; rfl)
      exact List.mem_dedup.mpr (List.mem_append.mpr (Or.inr hk))
    have := PREFER_SOURCE_sync kti src (universeKeys tgt src none)
      (universe_nodup tgt src none) tgt Stats.zero k v hmem hsrc
    rw [hrun1] at this
    exact this
  obtain ⟨st₂, hrun2, hupd, hadd⟩ :=
    PREFER_SOURCE_synced_run kti src tgt₁ hsync
      (universeKeys tgt₁ src none) Stats.zero
  exact ⟨tgt₁, st₁, st₂, hrun1, hrun2, hupd.trans rfl, hadd.trans rfl⟩

/-- Embedded from `src/xdol/pystores.py`: `SetupCfgReader.__getitem__`.
The inherited `FileBytesReader.__getitem__` is modelled by an association
list from relative paths to byte sequences, and Python's
`bytes.decode("utf-8")` by an abstract decoder `utf8Decode` that returns
`none` exactly when the decode would raise `UnicodeDecodeError`.  The
method decodes the stored bytes and returns the empty string when the
decode fails; an absent key is `none`. -/
def SetupCfgReader.getitem (utf8Decode : List Nat → Option String)
    (files : Store String (List Nat)) (k : String) : Option String :=
  (storeRead files k).map (fun bs =>
    match utf8Decode bs with
    | some s => s
    | none => "")

/-- C9: for every key present in a `SetupCfgReader`, `__getitem__` returns
the file's bytes decoded as UTF-8, and when decoding fails
(`UnicodeDecodeError`) it returns the empty string instead of propagating
the exception. -/
theorem C9_setupcfg_decode_or_empty (utf8Decode : List Nat → Option String)
    (files : Store String (List Nat)) (k : String) (bs : List Nat)
    (h : storeRead files k = some bs) :
    (∀ s, utf8Decode bs = some s →
      SetupCfgReader.getitem utf8Decode files k = some s) ∧
    (utf8Decode bs = none →
      SetupCfgReader.getitem utf8Decode files k = some "") := by
  constructor
  · intro s hdec
    simp [SetupCfgReader.getitem, h, hdec]
  · intro hdec
    simp [SetupCfgReader.getitem, h, hdec]

/-- Witness for C9: a decodable file yields its decoded text, an
undecodable one yields the empty string. -/
theorem C9_setupcfg_decode_or_empty_witness :
    SetupCfgReader.getitem (fun bs => if bs = [104] then some "h" else none)
        [("a/setup.cfg", [104]), ("b/setup.cfg", [255])] "a/setup.cfg"
      = some "h"
    ∧ SetupCfgReader.getitem (fun bs => if bs = [104] then some "h" else none)
        [("a/setup.cfg", [104]), ("b/setup.cfg", [255])] "b/setup.cfg"
      = some "" :=
  ⟨(C9_setupcfg_decode_or_empty (fun bs => if bs = [104] then some "h" else none)
      [("a/setup.cfg", [104]), ("b/setup.cfg", [255])] "a/setup.cfg" [104]
      (by rfl)).1 "h" (by rfl),
    (C9_setupcfg_decode_or_empty (fun bs => if bs = [104] then some "h" else none)
      [("a/setup.cfg", [104]), ("b/setup.cfg", [255])] "b/setup.cfg" [255]
      (by rfl)).2 (by rfl)⟩

/-- Embedded from `src/xdol/pystores.py`: the key filter shared by
`PyFilesBytes` and `py_files_wrap`:
`lambda k: k.endswith(".py") and "__pycache__" not in k`.
Keys are modelled as lists of characters. -/
def pyKeyFilt (k : List Char) : Bool :=
  decide (".py".toList <:+ k) && !decide ("__pycache__".toList <:+: k)

/-- Embedded from `src/xdol/pystores.py`: the keys enumerated by
`PyFilesBytes`, where `filt_iter` is the outermost decorator and so
filters the relative-path keys of the underlying store. -/
def PyFilesBytes.keyList (base : List (List Char)) : List (List Char) :=
  base.filter pyKeyFilt

/-- Embedded from `src/xdol/pystores.py`: the keys enumerated by
`PyFilesReader` via `py_files_wrap`, whose pipe applies `filt_iter` to the
absolute-path store and applies `mk_relative_path_store` outermost.  The
underlying `FileBytesReader` enumerates `root ++ r` for the relative
paths `r` of the files under `root`; the filtered keys are then made
relative again by dropping the `root` prefix. -/
def PyFilesReader.keyList (root : List Char) (rels : List (List Char)) :
    List (List Char) :=
  ((rels.map (fun r => root ++ r)).filter pyKeyFilt).map
    (fun k => k.drop root.length)

theorem suffix_of_suffix_append {α : Type} (s l₁ l₂ : List α)
    (h : s <:+ l₁ ++ l₂) (hl : s.length ≤ l₂.length) : s <:+ l₂ := by
  obtain ⟨t, ht⟩ := h
  have hlen : l₁.length ≤ t.length := by
    have hlc := congrArg List.length ht
    simp only [List.length_append] at hlc
    omega
  refine ⟨t.drop l₁.length, ?_⟩
  have h2 : (t ++ s).drop l₁.length = t.drop l₁.length ++ s := by
    rw [List.drop_append_eq_append_drop, Nat.sub_eq_zero_of_le hlen, List.drop_zero]
  rw [← h2, ht, List.drop_left]

theorem py_suffix_transfer (root r : List Char) (hroot : ['/'] <:+ root)
    (h : ['.', 'p', 'y'] <:+ root ++ r) : ['.', 'p', 'y'] <:+ r := by
  by_cases hr : 3 ≤ r.length
  · exact suffix_of_suffix_append _ root r h (by simpa using hr)
  · exfalso
    obtain ⟨a, ha⟩ := hroot
    have hsl : ('/' :: r) <:+ root ++ r := by
      refine ⟨a, ?_⟩
      rw [← ha]
      simp
    obtain ⟨t, ht⟩ := h
    rw [← ht] at hsl
    have hcmp : ('/' :: r) <:+ ['.', 'p', 'y'] := by
      apply suffix_of_suffix_append _ t _ hsl
      simp only [List.length_cons, List.length_singleton]
      omega
    have hmem : ('/' : Char) ∈ ['.', 'p', 'y'] :=
      hcmp.subset (List.mem_cons_self '/' r)
    simp at hmem

/-- C10: every key enumerated by `PyFilesBytes` and (for a root directory
path ending in the path separator) by `PyFilesReader` ends with `.py` and
does not contain `__pycache__`, for every underlying file set. -/
theorem C10_py_keys_filtered :
    (∀ (base : List (List Char)) (k : List Char), k ∈ PyFilesBytes.keyList base →
      (".py".toList <:+ k ∧ ¬ ("__pycache__".toList <:+: k))) ∧
    (∀ (root : List Char) (rels : List (List Char)) (k : List Char),
      ("/".toList <:+ root) → k ∈ PyFilesReader.keyList root rels →
      (".py".toList <:+ k ∧ ¬ ("__pycache__".toList <:+: k))) := by
  constructor
  · intro base k hk
    have h2 := (List.mem_filter.mp hk).2
    simpa [pyKeyFilt] using h2
  · intro root rels k hroot hk
    obtain ⟨k₀, hk₀, hdrop⟩ := List.mem_map.mp hk
    have h1 := List.mem_filter.mp hk₀
    obtain ⟨r, hr, hkr⟩ := List.mem_map.mp h1.1
    have hfilt := h1.2
    rw [← hkr] at hfilt hdrop
    have hk_eq : k = r := by
      rw [← hdrop, List.drop_left]
    subst hk_eq
    have hprops : (".py".toList <:+ root ++ k) ∧
        ¬ ("__pycache__".toList <:+: root ++ k) := by
      simpa [pyKeyFilt] using hfilt
    constructor
    · exact py_suffix_transfer root k hroot hprops.1
    · exact fun hinf => hprops.2 (hinf.trans (List.suffix_append root k).isInfix)

/-- Witness for C10: concrete file sets for both store shapes. -/
theorem C10_py_keys_filtered_witness :
    (".py".toList <:+ "a.py".toList ∧ ¬ ("__pycache__".toList <:+: "a.py".toList))
    ∧ (".py".toList <:+ "mod.py".toList
        ∧ ¬ ("__pycache__".toList <:+: "mod.py".toList)) :=
  ⟨C10_py_keys_filtered.1 ["a.py".toList, "b.txt".toList] "a.py".toList (by decide),
    C10_py_keys_filtered.2 "pkg/".toList ["mod.py".toList] "mod.py".toList
      (by decide) (by decide)⟩

end Xdol
